import Mathlib

/-!
Verification development for the LLM usage-logging and context-budget
subsystem of the openclaw repository.

Shallow embedding notes.

JavaScript strings are modelled as lists of characters (`JsString`), so that
`length`, `slice`, and concatenation have their exact JS index semantics
(including `slice` with negative arguments, which counts from the end, and
`slice(-0)`, which is `slice(0)`).

Dynamic (`unknown`) message values are modelled by the inductive `JMsg`,
whose constructors partition JS values exactly as the source code's shape
probes do: `nullish` is `null`/`undefined` (property access throws a
TypeError, modelled as `Except.error`), `prim` is any other non-object
value (property access yields `undefined`), and `obj` carries the `role`
field (`none` when absent or not a string), the `content` field, and an
opaque `extra` component standing for all remaining fields, which the code
copies through spreads but never inspects.

Code that can throw returns `Except Unit _`; pure passes return plain
values.  File writes, wall-clock timestamps and the side-channel logger are
external collaborators and are not part of the modelled state; the event
record that would be written is returned instead.
-/

abbrev JsString := List Char

/-- JS `s.slice(0, e)`: a negative end counts from the end of the string. -/
def jsSliceToEnd (s : JsString) (e : Int) : JsString :=
  s.take (if e < 0 then max ((s.length : Int) + e) 0 else min e (s.length : Int)).toNat

/-- JS `l.slice(b)`: a negative start counts from the end; `-0` is `0`. -/
def jsSliceFrom {α : Type} (l : List α) (b : Int) : List α :=
  l.drop (if b < 0 then max ((l.length : Int) + b) 0 else min b (l.length : Int)).toNat

/-- JS `Map.get`, on an association-list model of a string-keyed map. -/
def mapGet {α : Type} : List (String × α) → String → Option α
  | [], _ => none
  | (k, v) :: rest, key => if k == key then some v else mapGet rest key

/-- JS `Map.set`, on an association-list model of a string-keyed map. -/
def mapSet {α : Type} : List (String × α) → String → α → List (String × α)
  | [], key, v => [(key, v)]
  | (k, w) :: rest, key, v =>
    if k == key then (key, v) :: rest else (k, w) :: mapSet rest key v

/-- A content block: an object carrying a string `text` field, a `null` or
`undefined` entry, or any other value (object without a string `text`,
or a non-object).  `extra` stands for the remaining fields. -/
inductive JBlock where
  | nullish : JBlock
  | withText (text : JsString) (extra : Nat) : JBlock
  | other (extra : Nat) : JBlock
deriving DecidableEq

/-- The `content` field of a message: a string, an array of blocks, or any
other non-string non-array value (including `null`). -/
inductive JContent where
  | str (s : JsString) : JContent
  | arr (blocks : List JBlock) : JContent
  | other (extra : Nat) : JContent
deriving DecidableEq

/-- A dynamically-typed message value as probed by the source: `nullish`
(`null`/`undefined`), a non-object primitive, or an object with optional
`role` (string) and `content` fields plus opaque remaining fields. -/
inductive JMsg where
  | nullish : JMsg
  | prim (extra : Nat) : JMsg
  | obj (role : Option String) (content : Option JContent) (extra : Nat) : JMsg
deriving DecidableEq

/-- `countMessageChars` inner loop over content blocks: `b.text` access on a
`null`/`undefined` block throws (TypeError), a string `text` adds its
length, anything else adds nothing. -/
def countBlockChars : List JBlock → Nat → Except Unit Nat
  | [], acc => Except.ok acc
  | JBlock.nullish :: _, _ => Except.error ()
  | JBlock.withText t _ :: rest, acc => countBlockChars rest (acc + t.length)
  | JBlock.other _ :: rest, acc => countBlockChars rest acc

/-- `countMessageChars(msg)`: length of a string `content`; sum of string
`text` block lengths for an array `content`; `0` otherwise.  Property
access on a `null`/`undefined` message (or block) throws. -/
def countMessageChars : JMsg → Except Unit Nat
  | JMsg.nullish => Except.error ()
  | JMsg.prim _ => Except.ok 0
  | JMsg.obj _ content _ =>
    match content with
    | some (JContent.str s) => Except.ok s.length
    | some (JContent.arr blocks) => countBlockChars blocks 0
    | some (JContent.other _) => Except.ok 0
    | none => Except.ok 0

/-- `analyzeMessages` accumulator loop: running total and running maximum. -/
def analyzeGo : List JMsg → Nat → Nat → Except Unit (Nat × Nat)
  | [], tot, mx => Except.ok (tot, mx)
  | msg :: rest, tot, mx =>
    match countMessageChars msg with
    | Except.error e => Except.error e
    | Except.ok chars => analyzeGo rest (tot + chars) (if mx < chars then chars else mx)

/-- `analyzeMessages(messages)` returning `(totalTextChars, maxMessageTextChars)`. -/
def analyzeMessages (messages : List JMsg) : Except Unit (Nat × Nat) :=
  analyzeGo messages 0 0

/-- `estimateTokens(chars)`: `Math.ceil(chars / 4)`. -/
def estimateTokens (chars : Nat) : Nat :=
  (chars + 3) / 4

/-- Entry of the per-session loop tracker map. -/
structure LoopEntry where
  messageCount : Nat
  totalChars : Nat
  streak : Nat
deriving DecidableEq

/-- The process-wide loop tracker map, keyed by session label. -/
abbrev LoopTracker := List (String × LoopEntry)

def LOOP_STREAK_THRESHOLD : Nat := 3

/-- The `LOOP_BREAK` warning template literal. -/
def loopWarningText (sessionKey : String) (messageCount totalChars streak : Nat) : String :=
  "LOOP_BREAK: session " ++ sessionKey ++ " has sent the same context (messages=" ++
    toString messageCount ++ ", chars=" ++ toString totalChars ++ ") " ++
    toString streak ++ " times consecutively"

/-- `checkAndUpdateLoopTracker`: on an exact shape match the streak is
incremented (the map entry is mutated in place, hence updated in the
returned map); a warning is produced when the incremented streak reaches
the threshold.  Otherwise the entry is replaced with streak 1. -/
def checkAndUpdateLoopTracker (tracker : LoopTracker) (sessionKey : String)
    (messageCount totalChars : Nat) : Option String × LoopTracker :=
  match mapGet tracker sessionKey with
  | some entry =>
    if entry.messageCount == messageCount && entry.totalChars == totalChars then
      if LOOP_STREAK_THRESHOLD ≤ entry.streak + 1 then
        (some (loopWarningText sessionKey messageCount totalChars (entry.streak + 1)),
         mapSet tracker sessionKey ⟨messageCount, totalChars, entry.streak + 1⟩)
      else
        (none, mapSet tracker sessionKey ⟨messageCount, totalChars, entry.streak + 1⟩)
    else (none, mapSet tracker sessionKey ⟨messageCount, totalChars, 1⟩)
  | none => (none, mapSet tracker sessionKey ⟨messageCount, totalChars, 1⟩)

inductive UsageStage where
  | input : UsageStage
  | usage : UsageStage
  | loopBreak : UsageStage
deriving DecidableEq

/-- The measured core of a `UsageLogEvent` (timestamp and the identity
fields copied from the logger instance are environment metadata and are
omitted; none of the claims refer to them). -/
structure UsageEventCore where
  stage : UsageStage
  messageCount : Nat
  totalTextChars : Nat
  maxMessageTextChars : Nat
  estimatedInputTokens : Nat
  loopWarning : Option String
deriving DecidableEq

/-- The wrapped stream function produced by `wrapStreamFn`.  `messagesOf`
models the dynamic probe `ctx?.messages` followed by `Array.isArray`
(`none` when the value is missing or not an array; the source then uses
`[]`).  The returned triple is (call result or thrown TypeError, updated
loop tracker, the event record handed to the queued writer). -/
def wrapStreamFn {Model Ctx Opts R : Type} (messagesOf : Ctx → Option (List JMsg))
    (streamFn : Model → Ctx → Opts → R) (sessionLabel : String)
    (model : Model) (context : Ctx) (options : Opts) (tracker : LoopTracker) :
    Except Unit R × LoopTracker × Option UsageEventCore :=
  match analyzeMessages ((messagesOf context).getD []) with
  | Except.error e => (Except.error e, tracker, none)
  | Except.ok (totalTextChars, maxMessageTextChars) =>
    (Except.ok (streamFn model context options),
     (checkAndUpdateLoopTracker tracker sessionLabel
        ((messagesOf context).getD []).length totalTextChars).2,
     some
       { stage :=
           if (checkAndUpdateLoopTracker tracker sessionLabel
                 ((messagesOf context).getD []).length totalTextChars).1.isSome
           then UsageStage.loopBreak else UsageStage.input
         messageCount := ((messagesOf context).getD []).length
         totalTextChars := totalTextChars
         maxMessageTextChars := maxMessageTextChars
         estimatedInputTokens := estimateTokens totalTextChars
         loopWarning :=
           (checkAndUpdateLoopTracker tracker sessionLabel
              ((messagesOf context).getD []).length totalTextChars).1 })

/-- Entries (message or block) whose property accesses never throw: every
value except `null`/`undefined`. -/
def goodBlock : JBlock → Bool
  | JBlock.nullish => false
  | _ => true

def goodVal : JMsg → Bool
  | JMsg.nullish => false
  | JMsg.prim _ => true
  | JMsg.obj _ content _ =>
    match content with
    | some (JContent.arr blocks) => blocks.all goodBlock
    | _ => true

/-- Entries with no extractable text at all (used to state that they
contribute 0 to the analyzer totals). -/
def noTextVal : JMsg → Bool
  | JMsg.nullish => false
  | JMsg.prim _ => true
  | JMsg.obj _ content _ =>
    match content with
    | none => true
    | some (JContent.str _) => false
    | some (JContent.other _) => true
    | some (JContent.arr blocks) =>
      blocks.all (fun b => match b with | JBlock.other _ => true | _ => false)

/-! ### compactMessages -/

def TRUNC_SUFFIX : JsString :=
  "\n…[truncated — content exceeded context budget]".toList

/-- `truncateString(text, limit)` from `compactMessages`.  Note that when
`limit < TRUNC_SUFFIX.length`, the JS `slice(0, limit - suffix)` has a
negative end and keeps almost the whole string, so the result may exceed
`limit`. -/
def truncateString (text : JsString) (limit : Int) : JsString :=
  if (text.length : Int) ≤ limit then text
  else jsSliceToEnd text (limit - (TRUNC_SUFFIX.length : Int)) ++ TRUNC_SUFFIX

/-- The role probe `m.role === "toolResult" || m.role === "tool" || m.role === "function"`. -/
def isToolResultRole (role : Option String) : Bool :=
  role == some "toolResult" || role == some "tool" || role == some "function"

/-- The per-message character cap chosen by `compactContent`. -/
def capFor (maxMsgChars maxToolChars : Int) (role : Option String) : Int :=
  if isToolResultRole role then maxToolChars else maxMsgChars

/-- Per-block truncation inside `compactContent` for an array content. -/
def truncBlock (cap : Int) (b : JBlock) : JBlock :=
  match b with
  | JBlock.withText t extra =>
    if (t.length : Int) ≤ cap then b else JBlock.withText (truncateString t cap) extra
  | _ => b

/-- `compactContent(content, isToolResult)` with the cap already resolved. -/
def compactContent (c : JContent) (cap : Int) : JContent :=
  match c with
  | JContent.str s => JContent.str (truncateString s cap)
  | JContent.arr blocks => JContent.arr (blocks.map (truncBlock cap))
  | JContent.other _ => c

/-- The truncation pass of `compactMessages` on one message: non-objects and
messages without a `content` field pass through; otherwise the content is
compacted under the role-dependent cap (the spread `{...m, content}` keeps
role and the remaining fields). -/
def compactOneMsg (maxMsgChars maxToolChars : Int) (msg : JMsg) : JMsg :=
  match msg with
  | JMsg.nullish => msg
  | JMsg.prim _ => msg
  | JMsg.obj role content extra =>
    match content with
    | none => msg
    | some c =>
      JMsg.obj role (some (compactContent c (capFor maxMsgChars maxToolChars role))) extra

/-- The system-role probe used by the dedup and windowing passes:
`m && typeof m === "object" && m.role === "system"`. -/
def isSystem : JMsg → Bool
  | JMsg.obj role _ _ => role == some "system"
  | _ => false

/-- A structural model of `JSON.stringify` on content values, exact up to
the model's abstraction of the untracked extra fields (the dedup key is
only ever compared for equality). -/
def jsonStringifyBlock : JBlock → String
  | JBlock.nullish => "null"
  | JBlock.withText t extra =>
    "\x7b\"text\":\"" ++ String.mk t ++ "\",\"extra\":" ++ toString extra ++ "\x7d"
  | JBlock.other extra => "\x7b\"extra\":" ++ toString extra ++ "\x7d"

def jsonStringifyContent : JContent → String
  | JContent.str s => "\"" ++ String.mk s ++ "\""
  | JContent.arr blocks =>
    "[" ++ String.intercalate "," (blocks.map jsonStringifyBlock) ++ "]"
  | JContent.other extra => "\x7b\"extra\":" ++ toString extra ++ "\x7d"

/-- The dedup key: the raw content when it is a string, else its JSON
serialization; `JSON.stringify(undefined)` is `undefined`, hence `none`. -/
def systemKey : Option JContent → Option JsString
  | some (JContent.str s) => some s
  | some c => some (jsonStringifyContent c).toList
  | none => none

/-- The dedup key of a message (only consulted on system-role objects). -/
def msgKey : JMsg → Option JsString
  | JMsg.obj _ content _ => systemKey content
  | _ => none

/-- The dedup filter of `compactMessages`, with the mutable `seen` set made
explicit: non-system messages always pass; a system message passes only
when its key has not been seen, in which case the key is recorded. -/
def dedupGo (seen : List (Option JsString)) : List JMsg → List JMsg
  | [] => []
  | msg :: rest =>
    if isSystem msg then
      if msgKey msg ∈ seen then dedupGo seen rest
      else msg :: dedupGo (msgKey msg :: seen) rest
    else msg :: dedupGo seen rest

/-- The tail-window pass of `compactMessages`.  Note
`nonSystem.slice(-Math.max(0, maxMessages - system.length))`: when
`system.length ≥ maxMessages` this is `slice(-0) = slice(0)`, the whole
non-system list. -/
def windowMessages (maxMessages : Int) (compacted : List JMsg) : List JMsg :=
  if 0 < maxMessages ∧ maxMessages < (compacted.length : Int) then
    compacted.filter isSystem ++
      jsSliceFrom (compacted.filter (fun m => !(isSystem m)))
        (-(max 0 (maxMessages - ((compacted.filter isSystem).length : Int))))
  else compacted

structure CompactOptions where
  maxMessages : Option Int := none
  maxMessageChars : Option Int := none
  maxToolResultChars : Option Int := none
deriving DecidableEq

/-- `compactMessages(messages, options)`: truncate each message, dedup
system messages, then apply the tail window.  Defaults 60 / 20000 / 8000. -/
def compactMessages (messages : List JMsg) (options : CompactOptions) : List JMsg :=
  windowMessages (options.maxMessages.getD 60)
    (dedupGo []
      (messages.map
        (compactOneMsg (options.maxMessageChars.getD 20000)
          (options.maxToolResultChars.getD 8000))))

/-- System-role messages whose content is a string (the plain "text content"
reading of the spec; the dedup key of such a message is that string). -/
def hasStringContent : JMsg → Bool
  | JMsg.obj _ (some (JContent.str _)) _ => true
  | _ => false

/-- The text content of a system message with string content. -/
def sysTextContent : JMsg → Option JsString
  | JMsg.obj (some "system") (some (JContent.str s)) _ => some s
  | _ => none

/-- Specification-side dedup pass, written from the spec sentence: walk the
list carrying the already-walked prefix; drop a system message exactly when
some earlier system message anywhere in the prefix has the same text
content; keep everything else. -/
def dedupSpecGo (earlier : List JMsg) : List JMsg → List JMsg
  | [] => []
  | m :: rest =>
    if isSystem m ∧ (earlier.any fun p => isSystem p && sysTextContent p == sysTextContent m) then
      dedupSpecGo (earlier ++ [m]) rest
    else m :: dedupSpecGo (earlier ++ [m]) rest

/-- Keys of the system messages of a list, in order. -/
def sysKeys (l : List JMsg) : List (Option JsString) :=
  (l.filter isSystem).map msgKey

/-! ### history.ts -/

/-- An `AgentMessage` has a string `role`; the remaining fields are opaque. -/
structure AgentMessage where
  role : String
  extra : Nat
deriving DecidableEq

def isUser (m : AgentMessage) : Bool := m.role == "user"

def countUsers (l : List AgentMessage) : Nat := (l.filter isUser).length

/-- The backward scan of `limitHistoryTurns`: the first argument is one plus
the index about to be examined; `userCount` and `lastUserIndex` are the
loop variables.  On the user message that pushes the count past `limit`,
the list is cut at the previously recorded user index. -/
def luGo (messages : List AgentMessage) (limit : Int) :
    Nat → Int → Nat → List AgentMessage
  | 0, _, _ => messages
  | i + 1, userCount, lastUserIndex =>
    match messages[i]? with
    | some msg =>
      if isUser msg then
        if limit < userCount + 1 then messages.drop lastUserIndex
        else luGo messages limit i (userCount + 1) i
      else luGo messages limit i userCount lastUserIndex
    | none => luGo messages limit i userCount lastUserIndex

/-- `limitHistoryTurns(messages, limit)`; `none` models an absent limit, and
the falsy/`<= 0` guard returns the input unchanged. -/
def limitHistoryTurns (messages : List AgentMessage) (limit : Option Int) :
    List AgentMessage :=
  match limit with
  | none => messages
  | some l =>
    if l ≤ 0 ∨ messages.isEmpty then messages
    else luGo messages l messages.length 0 messages.length

def isAsciiDigit (c : Char) : Bool := '0' ≤ c && c ≤ '9'

/-- Whitespace predicate for the character-level model of `trim`. -/
def isJsWhitespace (c : Char) : Bool :=
  c == ' ' || c == '\t' || c == '\n' || c == '\r'

/-- `s.trim()` on the character-list model. -/
def trimChars (cs : List Char) : List Char :=
  ((cs.dropWhile isJsWhitespace).reverse.dropWhile isJsWhitespace).reverse

/-- `s.split(":")` on the character-list model: JS split always yields at
least one (possibly empty) part. -/
def splitOnColon : List Char → List (List Char)
  | [] => [[]]
  | c :: rest =>
    if c = ':' then [] :: splitOnColon rest
    else
      match splitOnColon rest with
      | [] => [[c]]
      | part :: parts => (c :: part) :: parts

/-- `s.toLowerCase()` on the character-list model. -/
def lowerChars (cs : List Char) : List Char := cs.map Char.toLower

/-- `parts.join(":")` on the character-list model. -/
def joinColon : List (List Char) → List Char
  | [] => []
  | [p] => p
  | p :: rest => p ++ ':' :: joinColon rest

/-- `stripThreadSuffix`: the regex `(.*)(?::(?:thread|topic):[0-9]+)$` with
the ignore-case flag, applied by scanning the reversed character list: a
non-empty run of trailing digits, a colon, the keyword (reversed, compared
lowercase, hence the reversed literals), and a colon; the greedy group
keeps everything before. -/
def stripThreadSuffixChars (value : List Char) : List Char :=
  match value.reverse.takeWhile isAsciiDigit, value.reverse.dropWhile isAsciiDigit with
  | [], _ => value
  | _ :: _, ':' :: rest2 =>
    if (rest2.take 6).map Char.toLower = "daerht".toList ∧ (rest2.drop 6).head? = some ':' then
      (rest2.drop 7).reverse
    else if (rest2.take 5).map Char.toLower = "cipot".toList ∧
        (rest2.drop 5).head? = some ':' then
      (rest2.drop 6).reverse
    else value
  | _, _ => value

/-- `stripThreadSuffix(value)` on strings. -/
def stripThreadSuffix (value : String) : String :=
  String.mk (stripThreadSuffixChars value.toList)

/-- Decimal digit-run parser used to model `Number.parseInt(s, 10)`. -/
def parseDigits (cs : List Char) : Option Nat :=
  match cs.takeWhile isAsciiDigit with
  | [] => none
  | ds => some (ds.foldl (fun acc c => acc * 10 + (c.toNat - '0'.toNat)) 0)

/-- `Number.parseInt(s, 10)` on a trimmed character list: optional sign
then a digit-run prefix; no digits means `NaN`, modelled as `none`. -/
def jsParseIntChars (cs : List Char) : Option Int :=
  match cs with
  | '-' :: rest => (parseDigits rest).map (fun n => -(n : Int))
  | '+' :: rest => (parseDigits rest).map (fun n => (n : Int))
  | _ => (parseDigits cs).map (fun n => (n : Int))

structure DmEntry where
  historyLimit : Option Int := none
deriving DecidableEq

structure ProviderChannelConfig where
  historyLimit : Option Int := none
  dmHistoryLimit : Option Int := none
  dms : Option (List (String × DmEntry)) := none
deriving DecidableEq

structure OpenClawConfig where
  channels : Option (List (String × ProviderChannelConfig)) := none
deriving DecidableEq

/-- `getHistoryLimitFromSessionKey`: split the session key, drop empty
parts, peel an `agent:<id>:` prefix, resolve the provider entry, then
dispatch on the conversation kind (per-DM override, DM default, or
channel/group limit). -/
def getHistoryLimitFromSessionKey (sessionKey : Option String)
    (config : Option OpenClawConfig) : Option Int :=
  match sessionKey, config with
  | some sk, some cfg =>
    if sk = "" then none
    else
      let parts := (splitOnColon sk.toList).filter (fun p => !p.isEmpty)
      let providerParts :=
        if 3 ≤ parts.length ∧ parts.head? = some ("agent".toList) then parts.drop 2 else parts
      match providerParts.head? with
      | none => none
      | some providerRaw =>
        if (lowerChars providerRaw).isEmpty then none
        else
          let kind := (providerParts[1]?).map lowerChars
          let userId := stripThreadSuffixChars (joinColon (providerParts.drop 2))
          match cfg.channels.bind (fun chs => mapGet chs (String.mk (lowerChars providerRaw))) with
          | none => none
          | some pc =>
            if kind == some ("dm".toList) || kind == some ("direct".toList) then
              if ¬ userId.isEmpty = true ∧
                  ((pc.dms.bind (fun d => mapGet d (String.mk userId))).bind
                    DmEntry.historyLimit).isSome then
                (pc.dms.bind (fun d => mapGet d (String.mk userId))).bind DmEntry.historyLimit
              else pc.dmHistoryLimit
            else if kind == some ("channel".toList) || kind == some ("group".toList) then
              pc.historyLimit
            else none
  | _, _ => none

/-- The parsed `LLM_MAX_HISTORY_TURNS` environment value:
`env.LLM_MAX_HISTORY_TURNS?.trim()` then `parseInt`; an unset variable, an
empty trimmed string, or a `NaN` parse all yield `none`. -/
def envCeilingOf (envVar : Option String) : Option Int :=
  match envVar with
  | none => none
  | some raw =>
    if (trimChars raw.toList).isEmpty then none
    else jsParseIntChars (trimChars raw.toList)

/-- `resolveEffectiveHistoryLimit`, with the environment variable passed as
a parameter: a finite positive parsed ceiling caps the config-derived
limit via `Math.min`; otherwise the config-derived limit is returned. -/
def resolveEffectiveHistoryLimit (sessionKey : Option String)
    (config : Option OpenClawConfig) (envVar : Option String) : Option Int :=
  match envCeilingOf envVar with
  | some envLimit =>
    if 0 < envLimit then
      match getHistoryLimitFromSessionKey sessionKey config with
      | some configLimit => some (min configLimit envLimit)
      | none => some envLimit
    else getHistoryLimitFromSessionKey sessionKey config
  | none => getHistoryLimitFromSessionKey sessionKey config

/-- Concrete configuration used to witness the ceiling behaviour. -/
def cfgW : OpenClawConfig :=
  { channels := some
      [("telegram", { historyLimit := some 50 }),
       ("discord", { historyLimit := some 20 })] }

/-- Fresh-session loop-detector scenario: three identical observations. -/
def loopStep1 : Option String × LoopTracker := checkAndUpdateLoopTracker [] "s1" 5 1000

def loopStep2 : Option String × LoopTracker := checkAndUpdateLoopTracker loopStep1.2 "s1" 5 1000

def loopStep3 : Option String × LoopTracker := checkAndUpdateLoopTracker loopStep2.2 "s1" 5 1000

/-- A fourth identical observation after the threshold was reached. -/
def loopStep4 : Option String × LoopTracker := checkAndUpdateLoopTracker loopStep3.2 "s1" 5 1000

/-- A differing observation (1001 chars) that resets the streak. -/
def loopStep5 : Option String × LoopTracker := checkAndUpdateLoopTracker loopStep4.2 "s1" 5 1001

/-- Ten user turns interleaved with assistant replies (20 messages). -/
def exTurns : List AgentMessage :=
  [⟨"user", 1⟩, ⟨"assistant", 1⟩, ⟨"user", 2⟩, ⟨"assistant", 2⟩,
   ⟨"user", 3⟩, ⟨"assistant", 3⟩, ⟨"user", 4⟩, ⟨"assistant", 4⟩,
   ⟨"user", 5⟩, ⟨"assistant", 5⟩, ⟨"user", 6⟩, ⟨"assistant", 6⟩,
   ⟨"user", 7⟩, ⟨"assistant", 7⟩, ⟨"user", 8⟩, ⟨"assistant", 8⟩,
   ⟨"user", 9⟩, ⟨"assistant", 9⟩, ⟨"user", 10⟩, ⟨"assistant", 10⟩]

/-! ## Helper lemmas -/

theorem list_map_fix {α : Type} (f : α → α) :
    ∀ l : List α, (∀ a ∈ l, f a = a) → l.map f = l := by
  intro l h
  induction l with
  | nil => rfl
  | cons a t ih =>
    simp only [List.map_cons]
    rw [h a (by simp), ih (fun b hb => h b (by simp [hb]))]

theorem filter_true_of_all {α : Type} (p : α → Bool) (l : List α)
    (h : ∀ a ∈ l, p a = true) : l.filter p = l :=
  List.filter_eq_self.mpr h

theorem filter_false_of_all {α : Type} (p : α → Bool) (l : List α)
    (h : ∀ a ∈ l, p a = false) : l.filter p = [] :=
  List.filter_eq_nil_iff.mpr (by intro a ha; simp [h a ha])

theorem truncateString_of_short (t : JsString) (cap : Int) (h : (t.length : Int) ≤ cap) :
    truncateString t cap = t := by
  unfold truncateString
  rw [if_pos h]

theorem truncateString_eq_of_long (s : JsString) (cap : Int)
    (hcap : (TRUNC_SUFFIX.length : Int) ≤ cap) (hlen : cap < (s.length : Int)) :
    truncateString s cap =
      s.take (cap - (TRUNC_SUFFIX.length : Int)).toNat ++ TRUNC_SUFFIX ∧
    (((s.take (cap - (TRUNC_SUFFIX.length : Int)).toNat ++ TRUNC_SUFFIX).length : Int) = cap) := by
  have hL : (0 : Int) ≤ (TRUNC_SUFFIX.length : Int) := Int.ofNat_nonneg _
  constructor
  · unfold truncateString jsSliceToEnd
    rw [if_neg (by omega)]
    have he : ¬ (cap - (TRUNC_SUFFIX.length : Int) < 0) := by omega
    rw [if_neg he]
    have hmin : min (cap - (TRUNC_SUFFIX.length : Int)) ((s.length : Int)) =
        cap - (TRUNC_SUFFIX.length : Int) := by omega
    rw [hmin]
  · rw [List.length_append, List.length_take]
    omega

theorem truncateString_len_le (s : JsString) (cap : Int)
    (hcap : (TRUNC_SUFFIX.length : Int) ≤ cap) :
    ((truncateString s cap).length : Int) ≤ cap := by
  by_cases h : (s.length : Int) ≤ cap
  · rw [truncateString_of_short s cap h]; exact h
  · rw [(truncateString_eq_of_long s cap hcap (by omega)).1]
    rw [(truncateString_eq_of_long s cap hcap (by omega)).2]

theorem truncBlock_withText (cap : Int) (t : JsString) (e : Nat) :
    truncBlock cap (JBlock.withText t e) =
      if (t.length : Int) ≤ cap then JBlock.withText t e
      else JBlock.withText (truncateString t cap) e := rfl

theorem truncBlock_fix (cap : Int) (hcap : (TRUNC_SUFFIX.length : Int) ≤ cap) (b : JBlock) :
    truncBlock cap (truncBlock cap b) = truncBlock cap b := by
  cases b with
  | nullish => rfl
  | other e => rfl
  | withText t e =>
    by_cases h : (t.length : Int) ≤ cap
    · have hfix : truncBlock cap (JBlock.withText t e) = JBlock.withText t e := by
        rw [truncBlock_withText, if_pos h]
      rw [hfix]; exact hfix
    · have hstep : truncBlock cap (JBlock.withText t e) =
          JBlock.withText (truncateString t cap) e := by
        rw [truncBlock_withText, if_neg h]
      rw [hstep, truncBlock_withText, if_pos (truncateString_len_le t cap hcap)]

theorem compactContent_fix (c : JContent) (cap : Int)
    (hcap : (TRUNC_SUFFIX.length : Int) ≤ cap) :
    compactContent (compactContent c cap) cap = compactContent c cap := by
  cases c with
  | str s =>
    show JContent.str (truncateString (truncateString s cap) cap) = _
    rw [truncateString_of_short _ _ (truncateString_len_le s cap hcap)]
    rfl
  | other e => rfl
  | arr bs =>
    show JContent.arr (((bs.map (truncBlock cap)).map (truncBlock cap))) = _
    rw [List.map_map]
    exact congrArg JContent.arr
      (List.map_congr_left (fun b _ => truncBlock_fix cap hcap b))

theorem compactOneMsg_fix (mm mt : Int)
    (h1 : (TRUNC_SUFFIX.length : Int) ≤ mm) (h2 : (TRUNC_SUFFIX.length : Int) ≤ mt)
    (msg : JMsg) :
    compactOneMsg mm mt (compactOneMsg mm mt msg) = compactOneMsg mm mt msg := by
  cases msg with
  | nullish => rfl
  | prim e => rfl
  | obj role content extra =>
    cases content with
    | none => rfl
    | some c =>
      have hcap : (TRUNC_SUFFIX.length : Int) ≤ capFor mm mt role := by
        unfold capFor; split
        · exact h2
        · exact h1
      show JMsg.obj role
          (some (compactContent (compactContent c (capFor mm mt role)) (capFor mm mt role)))
          extra = JMsg.obj role (some (compactContent c (capFor mm mt role))) extra
      rw [compactContent_fix _ _ hcap]

theorem dedupGo_cons (seen : List (Option JsString)) (m : JMsg) (rest : List JMsg) :
    dedupGo seen (m :: rest) =
      if isSystem m then
        if msgKey m ∈ seen then dedupGo seen rest
        else m :: dedupGo (msgKey m :: seen) rest
      else m :: dedupGo seen rest := rfl

theorem dedupGo_subset (l : List JMsg) :
    ∀ (seen : List (Option JsString)), ∀ a ∈ dedupGo seen l, a ∈ l := by
  induction l with
  | nil => intro seen a ha; exact absurd ha (by simp [dedupGo])
  | cons m rest ih =>
    intro seen a ha
    rw [dedupGo_cons] at ha
    by_cases hs : isSystem m = true
    · rw [if_pos hs] at ha
      by_cases hk : msgKey m ∈ seen
      · rw [if_pos hk] at ha
        exact List.mem_cons_of_mem m (ih seen a ha)
      · rw [if_neg hk] at ha
        rcases List.mem_cons.mp ha with h | h
        · simp [h]
        · exact List.mem_cons_of_mem m (ih _ a h)
    · rw [if_neg hs] at ha
      rcases List.mem_cons.mp ha with h | h
      · simp [h]
      · exact List.mem_cons_of_mem m (ih seen a h)

theorem windowMessages_mem (M : Int) (l : List JMsg) :
    ∀ a ∈ windowMessages M l, a ∈ l := by
  intro a ha
  unfold windowMessages at ha
  split at ha
  · rcases List.mem_append.mp ha with h | h
    · exact (List.mem_filter.mp h).1
    · exact (List.mem_filter.mp (List.mem_of_mem_drop h)).1
  · exact ha

theorem dedupGo_keys (l : List JMsg) :
    ∀ seen : List (Option JsString),
      (sysKeys (dedupGo seen l)).Nodup ∧ ∀ k ∈ sysKeys (dedupGo seen l), k ∉ seen := by
  induction l with
  | nil => intro seen; constructor <;> simp [dedupGo, sysKeys]
  | cons m rest ih =>
    intro seen
    by_cases hs : isSystem m = true
    · by_cases hk : msgKey m ∈ seen
      · have hstep : dedupGo seen (m :: rest) = dedupGo seen rest := by
          rw [dedupGo_cons, if_pos hs, if_pos hk]
        rw [hstep]; exact ih seen
      · have hstep : dedupGo seen (m :: rest) = m :: dedupGo (msgKey m :: seen) rest := by
          rw [dedupGo_cons, if_pos hs, if_neg hk]
        have hkeys : sysKeys (m :: dedupGo (msgKey m :: seen) rest) =
            msgKey m :: sysKeys (dedupGo (msgKey m :: seen) rest) := by
          simp [sysKeys, List.filter_cons, hs]
        obtain ⟨ihn, ihd⟩ := ih (msgKey m :: seen)
        rw [hstep, hkeys]
        constructor
        · rw [List.nodup_cons]
          refine ⟨fun hmem => ?_, ihn⟩
          exact (ihd _ hmem) (by simp)
        · intro k hkmem
          rcases List.mem_cons.mp hkmem with h | h
          · rw [h]; exact hk
          · intro hin; exact (ihd _ h) (List.mem_cons_of_mem _ hin)
    · have hstep : dedupGo seen (m :: rest) = m :: dedupGo seen rest := by
        rw [dedupGo_cons, if_neg hs]
      have hkeys : sysKeys (m :: dedupGo seen rest) = sysKeys (dedupGo seen rest) := by
        simp [sysKeys, List.filter_cons, hs]
      rw [hstep, hkeys]; exact ih seen

theorem dedupGo_eq_self (l : List JMsg) :
    ∀ seen, (sysKeys l).Nodup → (∀ k ∈ sysKeys l, k ∉ seen) → dedupGo seen l = l := by
  induction l with
  | nil => intro seen _ _; rfl
  | cons m rest ih =>
    intro seen hnd hdisj
    by_cases hs : isSystem m = true
    · have hkeys : sysKeys (m :: rest) = msgKey m :: sysKeys rest := by
        simp [sysKeys, List.filter_cons, hs]
      rw [hkeys] at hnd hdisj
      have hk : msgKey m ∉ seen := hdisj _ (by simp)
      have hstep : dedupGo seen (m :: rest) = m :: dedupGo (msgKey m :: seen) rest := by
        rw [dedupGo_cons, if_pos hs, if_neg hk]
      rw [hstep]
      rw [ih (msgKey m :: seen) (List.nodup_cons.mp hnd).2 ?_]
      intro k hkmem hin
      rcases List.mem_cons.mp hin with h | h
      · rw [h] at hkmem; exact (List.nodup_cons.mp hnd).1 hkmem
      · exact (hdisj k (List.mem_cons_of_mem _ hkmem)) h
    · have hkeys : sysKeys (m :: rest) = sysKeys rest := by
        simp [sysKeys, List.filter_cons, hs]
      rw [hkeys] at hnd hdisj
      have hstep : dedupGo seen (m :: rest) = m :: dedupGo seen rest := by
        rw [dedupGo_cons, if_neg hs]
      rw [hstep, ih seen hnd hdisj]

theorem filter_sys_sys (l : List JMsg) :
    (l.filter isSystem).filter isSystem = l.filter isSystem :=
  filter_true_of_all _ _ (fun a ha => (List.mem_filter.mp ha).2)

theorem filter_not_of_sys (l : List JMsg) :
    (l.filter isSystem).filter (fun m => !(isSystem m)) = [] :=
  filter_false_of_all _ _ (fun a ha => by
    have := (List.mem_filter.mp ha).2
    simp [this])

theorem filter_sys_of_not (l : List JMsg) :
    (l.filter (fun m => !(isSystem m))).filter isSystem = [] :=
  filter_false_of_all _ _ (fun a ha => by
    have := (List.mem_filter.mp ha).2
    simpa using this)

theorem filter_not_not (l : List JMsg) :
    (l.filter (fun m => !(isSystem m))).filter (fun m => !(isSystem m)) =
      l.filter (fun m => !(isSystem m)) :=
  filter_true_of_all _ _ (fun a ha => (List.mem_filter.mp ha).2)

theorem jsSliceFrom_zero {α : Type} (l : List α) : jsSliceFrom l (-(0 : Int)) = l := by
  unfold jsSliceFrom
  rw [if_neg (by omega)]
  have h : min (-(0 : Int)) ((l.length : Int)) = 0 := by omega
  rw [h]
  rfl

theorem jsSliceFrom_mem {α : Type} (l : List α) (b : Int) :
    ∀ a ∈ jsSliceFrom l b, a ∈ l := by
  intro a ha
  exact List.mem_of_mem_drop ha

theorem sysKeys_window (M : Int) (l : List JMsg) :
    sysKeys (windowMessages M l) = sysKeys l := by
  unfold windowMessages
  split
  · unfold sysKeys
    rw [List.filter_append, filter_sys_sys]
    have h2 : (jsSliceFrom (l.filter fun m => !(isSystem m))
        (-(max 0 (M - ((l.filter isSystem).length : Int))))).filter isSystem = [] := by
      apply filter_false_of_all
      intro a ha
      have hmem : a ∈ (l.filter fun m => !(isSystem m)) := jsSliceFrom_mem _ _ a ha
      have := (List.mem_filter.mp hmem).2
      simpa using this
    rw [h2, List.append_nil]
  · rfl

theorem windowMessages_of_not (M : Int) (x : List JMsg)
    (h : ¬ (0 < M ∧ M < (x.length : Int))) : windowMessages M x = x := by
  unfold windowMessages; rw [if_neg h]

theorem windowMessages_of_lt (M : Int) (x : List JMsg)
    (h : 0 < M ∧ M < (x.length : Int)) :
    windowMessages M x =
      x.filter isSystem ++
        jsSliceFrom (x.filter fun m => !(isSystem m))
          (-(max 0 (M - ((x.filter isSystem).length : Int)))) := by
  unfold windowMessages; rw [if_pos h]

theorem windowMessages_fix (M : Int) (l : List JMsg) :
    windowMessages M (windowMessages M l) = windowMessages M l := by
  by_cases hc : 0 < M ∧ M < (l.length : Int)
  case neg =>
    have h := windowMessages_of_not M l hc
    rw [h]
    exact h
  case pos =>
    have hWl := windowMessages_of_lt M l hc
    by_cases hS : ((l.filter isSystem).length : Int) < M
    · -- positive window: the result already fits inside M messages
      have hb : (-(max 0 (M - ((l.filter isSystem).length : Int))) < 0) := by omega
      have htail : ((jsSliceFrom (l.filter fun m => !(isSystem m))
          (-(max 0 (M - ((l.filter isSystem).length : Int))))).length : Int) ≤
          M - ((l.filter isSystem).length : Int) := by
        unfold jsSliceFrom
        rw [if_pos hb, List.length_drop]
        omega
      have hlen : ¬ (0 < M ∧ M <
          ((l.filter isSystem ++
            jsSliceFrom (l.filter fun m => !(isSystem m))
              (-(max 0 (M - ((l.filter isSystem).length : Int))))).length : Int)) := by
        rw [List.length_append]
        intro hcon
        push_cast at hcon htail
        omega
      rw [hWl]
      exact windowMessages_of_not M _ hlen
    · -- system overflow: the kept tail is the whole non-system list
      have hke : max 0 (M - ((l.filter isSystem).length : Int)) = 0 := by omega
      have htail : jsSliceFrom (l.filter fun m => !(isSystem m))
          (-(max 0 (M - ((l.filter isSystem).length : Int)))) =
          l.filter fun m => !(isSystem m) := by
        rw [hke]; exact jsSliceFrom_zero _
      rw [hWl, htail]
      by_cases hc2 : 0 < M ∧
          M < (((l.filter isSystem ++ l.filter fun m => !(isSystem m)).length : Int))
      · rw [windowMessages_of_lt M _ hc2]
        rw [List.filter_append, filter_sys_sys, filter_sys_of_not, List.append_nil]
        rw [List.filter_append, filter_not_of_sys, filter_not_not, List.nil_append]
        rw [hke]
        rw [jsSliceFrom_zero]
      · exact windowMessages_of_not M _ hc2

theorem compactMessages_idempotent_core (m : List JMsg) (o : CompactOptions)
    (h1 : (TRUNC_SUFFIX.length : Int) ≤ o.maxMessageChars.getD 20000)
    (h2 : (TRUNC_SUFFIX.length : Int) ≤ o.maxToolResultChars.getD 8000) :
    compactMessages (compactMessages m o) o = compactMessages m o := by
  have hmap : (compactMessages m o).map
      (compactOneMsg (o.maxMessageChars.getD 20000) (o.maxToolResultChars.getD 8000)) =
      compactMessages m o := by
    apply list_map_fix
    intro a ha
    have hx : a ∈ m.map
        (compactOneMsg (o.maxMessageChars.getD 20000) (o.maxToolResultChars.getD 8000)) := by
      unfold compactMessages at ha
      exact dedupGo_subset _ _ a (windowMessages_mem _ _ a ha)
    obtain ⟨b, _, rfl⟩ := List.mem_map.mp hx
    exact compactOneMsg_fix _ _ h1 h2 b
  have hded : dedupGo [] (compactMessages m o) = compactMessages m o := by
    apply dedupGo_eq_self
    · show (sysKeys (compactMessages m o)).Nodup
      unfold compactMessages
      rw [sysKeys_window]
      exact (dedupGo_keys _ []).1
    · intro k _
      simp
  show windowMessages (o.maxMessages.getD 60)
      (dedupGo [] ((compactMessages m o).map
        (compactOneMsg (o.maxMessageChars.getD 20000) (o.maxToolResultChars.getD 8000)))) =
      compactMessages m o
  rw [hmap, hded]
  unfold compactMessages
  exact windowMessages_fix _ _

theorem compactMessages_singleton (msg : JMsg) (o : CompactOptions) :
    compactMessages [msg] o =
      [compactOneMsg (o.maxMessageChars.getD 20000) (o.maxToolResultChars.getD 8000) msg] := by
  unfold compactMessages
  simp only [List.map_cons, List.map_nil]
  have hd : dedupGo []
      [compactOneMsg (o.maxMessageChars.getD 20000) (o.maxToolResultChars.getD 8000) msg] =
      [compactOneMsg (o.maxMessageChars.getD 20000) (o.maxToolResultChars.getD 8000) msg] := by
    rw [dedupGo_cons]
    by_cases hs : isSystem
        (compactOneMsg (o.maxMessageChars.getD 20000) (o.maxToolResultChars.getD 8000) msg) = true
    · rw [if_pos hs, if_neg (by simp)]
      rfl
    · rw [if_neg hs]
      rfl
  rw [hd]
  apply windowMessages_of_not
  rintro ⟨hc1, hc2⟩
  simp at hc2
  omega

/-- C2 (amended): re-applying `compactMessages` with the same options to its
own output is the identity, provided each resolved text cap
(`maxMessageChars`, defaulted to 20000, and `maxToolResultChars`, defaulted
to 8000) is at least the length of the truncation marker; without that
proviso truncation can grow strings and idempotence fails. -/
theorem compactMessages_idempotent (m : List JMsg) (o : CompactOptions)
    (h1 : (TRUNC_SUFFIX.length : Int) ≤ o.maxMessageChars.getD 20000)
    (h2 : (TRUNC_SUFFIX.length : Int) ≤ o.maxToolResultChars.getD 8000) :
    compactMessages (compactMessages m o) o = compactMessages m o :=
  compactMessages_idempotent_core m o h1 h2

/-- C2 counterexample: with `maxMessageChars = 1` (smaller than the
truncation marker) the message `"ab"` compacts to the 47-character marker,
and a second application compacts further, so the double application
differs from the single one. -/
theorem compactMessages_not_idempotent_small_cap :
    compactMessages
        (compactMessages [JMsg.obj (some "user") (some (JContent.str ("ab".toList))) 0]
          { maxMessageChars := some 1 })
        { maxMessageChars := some 1 } ≠
      compactMessages [JMsg.obj (some "user") (some (JContent.str ("ab".toList))) 0]
        { maxMessageChars := some 1 } := by decide

/-- C2 witness: the amended idempotence theorem applied at a concrete
two-message list under the default options. -/
theorem compactMessages_idempotent_witness :
    ((TRUNC_SUFFIX.length : Int) ≤ (({} : CompactOptions).maxMessageChars.getD 20000) ∧
     (TRUNC_SUFFIX.length : Int) ≤ (({} : CompactOptions).maxToolResultChars.getD 8000)) ∧
    compactMessages
        (compactMessages
          [JMsg.obj (some "system") (some (JContent.str ("sys".toList))) 0,
           JMsg.obj (some "user") (some (JContent.str ("hi".toList))) 1] {}) {} =
      compactMessages
        [JMsg.obj (some "system") (some (JContent.str ("sys".toList))) 0,
         JMsg.obj (some "user") (some (JContent.str ("hi".toList))) 1] {} :=
  ⟨by decide, compactMessages_idempotent _ _ (by decide) (by decide)⟩

/-- C4: evaluation at the failing input.  With `maxMessages = 2` and three
distinct system messages plus one user message, the windowing pass of
`compactMessages` is triggered (4 > 2) and the spec requires keeping the
system messages and `max(0, 2 - 3) = 0` non-system messages; the code's
`slice(-0)` keeps the whole non-system list instead, returning all four
messages. -/
theorem compactMessages_window_keeps_all_nonsystem :
    compactMessages
        [JMsg.obj (some "system") (some (JContent.str ("a".toList))) 0,
         JMsg.obj (some "system") (some (JContent.str ("b".toList))) 0,
         JMsg.obj (some "system") (some (JContent.str ("c".toList))) 0,
         JMsg.obj (some "user") (some (JContent.str ("u".toList))) 0]
        { maxMessages := some 2 } =
      [JMsg.obj (some "system") (some (JContent.str ("a".toList))) 0,
       JMsg.obj (some "system") (some (JContent.str ("b".toList))) 0,
       JMsg.obj (some "system") (some (JContent.str ("c".toList))) 0,
       JMsg.obj (some "user") (some (JContent.str ("u".toList))) 0] ∧
    (compactMessages
        [JMsg.obj (some "system") (some (JContent.str ("a".toList))) 0,
         JMsg.obj (some "system") (some (JContent.str ("b".toList))) 0,
         JMsg.obj (some "system") (some (JContent.str ("c".toList))) 0,
         JMsg.obj (some "user") (some (JContent.str ("u".toList))) 0]
        { maxMessages := some 2 }).length = 4 := by decide

/-- C8 (amended): for a message whose content is a single string longer
than the applicable cap, and when that cap is at least the marker length,
`compactMessages` replaces the content by the first (cap minus marker
length) characters followed by the marker, of length exactly the cap.  For
array contents the same rule applies to each text block individually (the
cap is per block, not per message). -/
theorem compactMessages_truncation_of_cap_ge_marker (role : Option String) (extra : Nat)
    (s : JsString) (o : CompactOptions)
    (hcap : (TRUNC_SUFFIX.length : Int) ≤
      capFor (o.maxMessageChars.getD 20000) (o.maxToolResultChars.getD 8000) role)
    (hlen : capFor (o.maxMessageChars.getD 20000) (o.maxToolResultChars.getD 8000) role <
      (s.length : Int)) :
    compactMessages [JMsg.obj role (some (JContent.str s)) extra] o =
      [JMsg.obj role (some (JContent.str
        (s.take (capFor (o.maxMessageChars.getD 20000) (o.maxToolResultChars.getD 8000) role -
          (TRUNC_SUFFIX.length : Int)).toNat ++ TRUNC_SUFFIX))) extra] ∧
    ((s.take (capFor (o.maxMessageChars.getD 20000) (o.maxToolResultChars.getD 8000) role -
        (TRUNC_SUFFIX.length : Int)).toNat ++ TRUNC_SUFFIX).length : Int) =
      capFor (o.maxMessageChars.getD 20000) (o.maxToolResultChars.getD 8000) role := by
  obtain ⟨heq, hlen2⟩ := truncateString_eq_of_long s _ hcap hlen
  refine ⟨?_, hlen2⟩
  rw [compactMessages_singleton]
  show [JMsg.obj role (some (JContent.str (truncateString s
    (capFor (o.maxMessageChars.getD 20000) (o.maxToolResultChars.getD 8000) role)))) extra] = _
  rw [heq]

/-- C8 counterexample: (a) with a cap of 1 (smaller than the marker) a
2-character string becomes the whole 47-character marker, not a string of
length 1; (b) a message whose extractable text (two 40-character blocks,
80 > cap 60) exceeds the cap passes through unchanged, because the cap is
applied per block, not to the message total. -/
theorem compactMessages_truncation_counterexample :
    (compactMessages [JMsg.obj (some "user") (some (JContent.str ("ab".toList))) 0]
        { maxMessageChars := some 1 } =
      [JMsg.obj (some "user") (some (JContent.str TRUNC_SUFFIX)) 0] ∧
     (TRUNC_SUFFIX.length : Int) ≠ 1) ∧
    compactMessages
        [JMsg.obj (some "user")
          (some (JContent.arr
            [JBlock.withText (List.replicate 40 'a') 0,
             JBlock.withText (List.replicate 40 'b') 1])) 0]
        { maxMessageChars := some 60 } =
      [JMsg.obj (some "user")
        (some (JContent.arr
          [JBlock.withText (List.replicate 40 'a') 0,
           JBlock.withText (List.replicate 40 'b') 1])) 0] := by decide

/-- C8 witness: the amended truncation theorem at a 60-character string
under `maxMessageChars = 50`: the result is the first 3 characters plus
the 47-character marker, of length exactly 50. -/
theorem compactMessages_truncation_witness :
    ((TRUNC_SUFFIX.length : Int) ≤
      capFor (({ maxMessageChars := some 50 } : CompactOptions).maxMessageChars.getD 20000)
        (({ maxMessageChars := some 50 } : CompactOptions).maxToolResultChars.getD 8000)
        (some "user") ∧
     capFor (({ maxMessageChars := some 50 } : CompactOptions).maxMessageChars.getD 20000)
        (({ maxMessageChars := some 50 } : CompactOptions).maxToolResultChars.getD 8000)
        (some "user") < ((List.replicate 60 'a').length : Int)) ∧
    compactMessages
        [JMsg.obj (some "user") (some (JContent.str (List.replicate 60 'a'))) 7]
        { maxMessageChars := some 50 } =
      [JMsg.obj (some "user") (some (JContent.str
        ((List.replicate 60 'a').take
          ((capFor (({ maxMessageChars := some 50 } : CompactOptions).maxMessageChars.getD 20000)
            (({ maxMessageChars := some 50 } : CompactOptions).maxToolResultChars.getD 8000)
            (some "user")) - (TRUNC_SUFFIX.length : Int)).toNat ++ TRUNC_SUFFIX))) 7] :=
  ⟨by decide,
   (compactMessages_truncation_of_cap_ge_marker (some "user") 7 (List.replicate 60 'a')
     { maxMessageChars := some 50 } (by decide) (by decide)).1⟩

theorem countBlockChars_ok (blocks : List JBlock) (h : ∀ b ∈ blocks, goodBlock b = true) :
    ∀ acc, ∃ n, countBlockChars blocks acc = Except.ok n := by
  induction blocks with
  | nil => intro acc; exact ⟨acc, rfl⟩
  | cons b t ih =>
    intro acc
    cases b with
    | nullish => exact absurd (h JBlock.nullish (by simp)) (by simp [goodBlock])
    | withText s e => exact ih (fun x hx => h x (by simp [hx])) (acc + s.length)
    | other e => exact ih (fun x hx => h x (by simp [hx])) acc

theorem countMessageChars_ok_of_good (v : JMsg) (h : goodVal v = true) :
    ∃ n, countMessageChars v = Except.ok n := by
  cases v with
  | nullish => exact absurd h (by simp [goodVal])
  | prim e => exact ⟨0, rfl⟩
  | obj role content extra =>
    cases content with
    | none => exact ⟨0, rfl⟩
    | some c =>
      cases c with
      | str s => exact ⟨s.length, rfl⟩
      | other e => exact ⟨0, rfl⟩
      | arr blocks =>
        have hb : ∀ b ∈ blocks, goodBlock b = true := by
          simpa [goodVal, List.all_eq_true] using h
        exact countBlockChars_ok blocks hb 0

theorem analyzeGo_ok (msgs : List JMsg) (h : ∀ v ∈ msgs, goodVal v = true) :
    ∀ tot mx, ∃ p, analyzeGo msgs tot mx = Except.ok p := by
  induction msgs with
  | nil => intro tot mx; exact ⟨(tot, mx), rfl⟩
  | cons v t ih =>
    intro tot mx
    obtain ⟨n, hn⟩ := countMessageChars_ok_of_good v (h v (by simp))
    have hstep : analyzeGo (v :: t) tot mx =
        analyzeGo t (tot + n) (if mx < n then n else mx) := by
      show (match countMessageChars v with
        | Except.error e => Except.error e
        | Except.ok chars => analyzeGo t (tot + chars) (if mx < chars then chars else mx)) = _
      rw [hn]
    rw [hstep]
    exact ih (fun x hx => h x (by simp [hx])) _ _

theorem countBlockChars_const (blocks : List JBlock)
    (h : ∀ b ∈ blocks, (match b with | JBlock.other _ => true | _ => false) = true) :
    ∀ acc, countBlockChars blocks acc = Except.ok acc := by
  induction blocks with
  | nil => intro acc; rfl
  | cons b t ih =>
    intro acc
    cases b with
    | nullish => exact absurd (h JBlock.nullish (by simp)) (by simp)
    | withText s e => exact absurd (h (JBlock.withText s e) (by simp)) (by simp)
    | other e => exact ih (fun x hx => h x (by simp [hx])) acc

theorem countMessageChars_noText (v : JMsg) (h : noTextVal v = true) :
    countMessageChars v = Except.ok 0 := by
  cases v with
  | nullish => exact absurd h (by simp [noTextVal])
  | prim e => rfl
  | obj role content extra =>
    cases content with
    | none => rfl
    | some c =>
      cases c with
      | str s => exact absurd h (by simp [noTextVal])
      | other e => rfl
      | arr blocks =>
        have hb : ∀ b ∈ blocks,
            (match b with | JBlock.other _ => true | _ => false) = true := by
          simpa [noTextVal, List.all_eq_true] using h
        exact countBlockChars_const blocks hb 0

/-- C5 (amended): for every input list whose entries contain no
`null`/`undefined` values, neither at the top level nor as blocks inside an
array content, the Message Analyzer returns its totals without throwing,
and every entry with no extractable text contributes 0.  Lists containing
`null`/`undefined` entries make the analyzer throw a TypeError (see the
counterexample), so the original unconditional claim fails. -/
theorem analyzeMessages_total_of_no_nullish (msgs : List JMsg)
    (h : ∀ v ∈ msgs, goodVal v = true) :
    (∃ p, analyzeMessages msgs = Except.ok p) ∧
    (∀ v ∈ msgs, noTextVal v = true → countMessageChars v = Except.ok 0) := by
  refine ⟨analyzeGo_ok msgs h 0 0, ?_⟩
  intro v _ hv
  exact countMessageChars_noText v hv

/-- C5 counterexample: a list whose only entry is `null`/`undefined` makes
`countMessageChars` (and hence `analyzeMessages`) throw a TypeError via the
unguarded `m.content` access, instead of contributing 0. -/
theorem analyzeMessages_throws_on_null_entry :
    analyzeMessages [JMsg.nullish] = Except.error () ∧
    countMessageChars JMsg.nullish = Except.error () :=
  ⟨rfl, rfl⟩

/-- C5 witness: the amended analyzer theorem applied at a concrete list of
well-formed but text-free entries. -/
theorem analyzeMessages_total_witness :
    goodVal (JMsg.prim 0) = true ∧
    (∃ p, analyzeMessages
      [JMsg.prim 0,
       JMsg.obj (some "user") (some (JContent.arr [JBlock.other 3])) 1,
       JMsg.obj none (some (JContent.other 2)) 4] = Except.ok p) ∧
    countMessageChars (JMsg.prim 0) = Except.ok 0 :=
  ⟨by decide,
   (analyzeMessages_total_of_no_nullish
     [JMsg.prim 0,
      JMsg.obj (some "user") (some (JContent.arr [JBlock.other 3])) 1,
      JMsg.obj none (some (JContent.other 2)) 4] (by decide)).1,
   (analyzeMessages_total_of_no_nullish
     [JMsg.prim 0,
      JMsg.obj (some "user") (some (JContent.arr [JBlock.other 3])) 1,
      JMsg.obj none (some (JContent.other 2)) 4] (by decide)).2
     (JMsg.prim 0) (by decide) (by decide)⟩

/-- C1 (amended): whenever the extracted messages array contains no
`null`/`undefined` entries (and no `null`/`undefined` blocks), the function
returned by `wrapStreamFn` returns exactly `callFn model context options`
(invoking the wrapped call once with the unmodified arguments), and this
holds regardless of the recorded stage, which is always `input` or
`loop_break`.  When the messages contain a `null`/`undefined` entry, the
wrapper itself throws from the analyzer before invoking the call (see the
counterexample), so the original unconditional claim fails. -/
theorem wrapStreamFn_transparent_of_wellFormed {Model Ctx Opts R : Type}
    (messagesOf : Ctx → Option (List JMsg)) (streamFn : Model → Ctx → Opts → R)
    (sessionLabel : String) (model : Model) (context : Ctx) (options : Opts)
    (tracker : LoopTracker)
    (h : ∀ v ∈ (messagesOf context).getD [], goodVal v = true) :
    (wrapStreamFn messagesOf streamFn sessionLabel model context options tracker).1 =
      Except.ok (streamFn model context options) ∧
    ∃ ev, (wrapStreamFn messagesOf streamFn sessionLabel model context options tracker).2.2 =
        some ev ∧
      (ev.stage = UsageStage.input ∨ ev.stage = UsageStage.loopBreak) := by
  obtain ⟨p, hp⟩ := analyzeGo_ok ((messagesOf context).getD []) h 0 0
  rcases p with ⟨tot, mx⟩
  unfold wrapStreamFn
  rw [show analyzeMessages ((messagesOf context).getD []) = Except.ok (tot, mx) from hp]
  refine ⟨rfl, ⟨_, rfl, ?_⟩⟩
  by_cases hw : (checkAndUpdateLoopTracker tracker sessionLabel
      ((messagesOf context).getD []).length tot).1.isSome = true
  · right; simp [hw]
  · left; simp [hw]

/-- C1 counterexample: with a context whose messages array is `[null]`, the
wrapped function throws a TypeError from the analyzer and never invokes the
wrapped call, whose result would have been `42`. -/
theorem wrapStreamFn_throws_on_null_message :
    (wrapStreamFn (fun _ : Nat => some [JMsg.nullish])
        (fun _ _ _ : Nat => (42 : Nat)) "s1" (0 : Nat) (0 : Nat) (0 : Nat) []).1 =
      Except.error () ∧
    (fun _ _ _ : Nat => (42 : Nat)) 0 0 0 = 42 ∧
    Except.error () ≠ (Except.ok 42 : Except Unit Nat) :=
  ⟨rfl, rfl, by simp⟩

/-- C1 witness: the amended transparency theorem at a concrete call. -/
theorem wrapStreamFn_transparent_witness :
    goodVal (JMsg.prim 0) = true ∧
    ((wrapStreamFn (fun _ : Nat => some [JMsg.prim 0])
        (fun _ _ _ : Nat => (42 : Nat)) "s1" (0 : Nat) (0 : Nat) (0 : Nat) []).1 =
      Except.ok 42 ∧
    ∃ ev, (wrapStreamFn (fun _ : Nat => some [JMsg.prim 0])
        (fun _ _ _ : Nat => (42 : Nat)) "s1" (0 : Nat) (0 : Nat) (0 : Nat) []).2.2 =
        some ev ∧
      (ev.stage = UsageStage.input ∨ ev.stage = UsageStage.loopBreak)) :=
  ⟨by decide,
   wrapStreamFn_transparent_of_wellFormed (fun _ : Nat => some [JMsg.prim 0])
     (fun _ _ _ : Nat => (42 : Nat)) "s1" 0 0 0 [] (by decide)⟩

/-- C3: the Loop Detector returns a warning exactly when the observation
matches the stored shape for the key and the incremented streak reaches the
threshold 3; and on a fresh key, three identical observations warn only on
the third, a fourth identical observation warns again, and a differing
observation yields no warning and resets the streak to 1. -/
theorem checkAndUpdateLoopTracker_warning_iff :
    (∀ (t : LoopTracker) (k : String) (m c : Nat),
      ((checkAndUpdateLoopTracker t k m c).1.isSome = true ↔
        ∃ e, mapGet t k = some e ∧ e.messageCount = m ∧ e.totalChars = c ∧
          LOOP_STREAK_THRESHOLD ≤ e.streak + 1)) ∧
    (loopStep1.1 = none ∧ loopStep2.1 = none ∧ loopStep3.1.isSome = true ∧
     loopStep4.1.isSome = true ∧ loopStep5.1 = none ∧
     mapGet loopStep5.2 "s1" = some ⟨5, 1001, 1⟩) := by
  constructor
  · intro t k m c
    unfold checkAndUpdateLoopTracker
    cases hg : mapGet t k with
    | none => simp
    | some e =>
      by_cases h1 : e.messageCount = m
      · by_cases h2 : e.totalChars = c
        · by_cases h3 : LOOP_STREAK_THRESHOLD ≤ e.streak + 1
          · simp [h1, h2, h3]
          · simp [h1, h2, h3]
        · simp [h1, h2]
      · simp [h1]
  · decide

/-- C7: the effective history limit is the config-derived limit when no
positive global ceiling is parsed from the environment, and the minimum of
the config-derived limit and the ceiling (the ceiling alone when no limit
is configured) when a positive ceiling is set, so the ceiling can only
lower the configured limit. -/
theorem resolveEffectiveHistoryLimit_ceiling_spec (sk : Option String)
    (cfg : Option OpenClawConfig) (s : String) (v : Int)
    (hp : envCeilingOf (some s) = some v) (hv : 0 < v) :
    resolveEffectiveHistoryLimit sk cfg none = getHistoryLimitFromSessionKey sk cfg ∧
    resolveEffectiveHistoryLimit sk cfg (some s) =
      some (match getHistoryLimitFromSessionKey sk cfg with
            | some c => min c v
            | none => v) := by
  constructor
  · rfl
  · have hd : resolveEffectiveHistoryLimit sk cfg (some s) =
        match envCeilingOf (some s) with
        | some envLimit =>
          if 0 < envLimit then
            match getHistoryLimitFromSessionKey sk cfg with
            | some configLimit => some (min configLimit envLimit)
            | none => some envLimit
          else getHistoryLimitFromSessionKey sk cfg
        | none => getHistoryLimitFromSessionKey sk cfg := rfl
    rw [hd, hp]
    show (if 0 < v then
        match getHistoryLimitFromSessionKey sk cfg with
        | some configLimit => some (min configLimit v)
        | none => some v
      else getHistoryLimitFromSessionKey sk cfg) = _
    rw [if_pos hv]
    cases hg : getHistoryLimitFromSessionKey sk cfg with
    | none => rfl
    | some c => rfl

/-- C7 witness: configured 50 with ceiling 30 yields 30, configured 20 with
ceiling 30 yields 20, and no ceiling yields the configured 50 unchanged. -/
theorem resolveEffectiveHistoryLimit_ceiling_witness :
    (envCeilingOf (some "30") = some 30 ∧ (0 : Int) < 30) ∧
    resolveEffectiveHistoryLimit (some "telegram:channel:team") (some cfgW) (some "30") =
      some 30 ∧
    resolveEffectiveHistoryLimit (some "discord:channel:team") (some cfgW) (some "30") =
      some 20 ∧
    resolveEffectiveHistoryLimit (some "telegram:channel:team") (some cfgW) none = some 50 :=
  ⟨⟨by decide, by decide⟩,
   ((resolveEffectiveHistoryLimit_ceiling_spec (some "telegram:channel:team") (some cfgW)
      "30" 30 (by decide) (by decide)).2).trans (by decide),
   ((resolveEffectiveHistoryLimit_ceiling_spec (some "discord:channel:team") (some cfgW)
      "30" 30 (by decide) (by decide)).2).trans (by decide),
   ((resolveEffectiveHistoryLimit_ceiling_spec (some "telegram:channel:team") (some cfgW)
      "30" 30 (by decide) (by decide)).1).trans (by decide)⟩

theorem msgKey_eq_sysText (m : JMsg) (hs : isSystem m = true) (hc : hasStringContent m = true) :
    ∃ s : JsString, msgKey m = some s ∧ sysTextContent m = some s := by
  cases m with
  | nullish => exact absurd hs (by simp [isSystem])
  | prim e => exact absurd hs (by simp [isSystem])
  | obj role content extra =>
    have hrole : role = some "system" := by simpa [isSystem] using hs
    subst hrole
    cases content with
    | none => exact absurd hc (by simp [hasStringContent])
    | some c =>
      cases c with
      | str s => exact ⟨s, rfl, rfl⟩
      | arr bs => exact absurd hc (by simp [hasStringContent])
      | other e => exact absurd hc (by simp [hasStringContent])

theorem dedupSpecGo_cons (earlier : List JMsg) (m : JMsg) (rest : List JMsg) :
    dedupSpecGo earlier (m :: rest) =
      if isSystem m ∧ (earlier.any fun p => isSystem p && sysTextContent p == sysTextContent m)
      then dedupSpecGo (earlier ++ [m]) rest
      else m :: dedupSpecGo (earlier ++ [m]) rest := rfl

theorem dedupGo_eq_spec_aux (l : List JMsg) :
    ∀ (earlier : List JMsg) (seen : List (Option JsString)),
      (∀ x ∈ earlier ++ l, isSystem x = true → hasStringContent x = true) →
      (∀ k, k ∈ seen ↔ ∃ p, p ∈ earlier ∧ isSystem p = true ∧ msgKey p = k) →
      dedupGo seen l = dedupSpecGo earlier l := by
  induction l with
  | nil => intro earlier seen _ _; rfl
  | cons m rest ih =>
    intro earlier seen hstr hseen
    have hstr' : ∀ x ∈ (earlier ++ [m]) ++ rest, isSystem x = true →
        hasStringContent x = true := by
      intro x hx
      apply hstr
      simp only [List.append_assoc, List.singleton_append] at hx
      exact hx
    by_cases hs : isSystem m = true
    · have hsc : hasStringContent m = true := hstr m (by simp) hs
      obtain ⟨s, hks, hts⟩ := msgKey_eq_sysText m hs hsc
      have hkey : (msgKey m ∈ seen) ↔
          ((earlier.any fun p => isSystem p && sysTextContent p == sysTextContent m) = true) := by
        rw [hseen (msgKey m), List.any_eq_true]
        constructor
        · rintro ⟨p, hp, hps, hpk⟩
          refine ⟨p, hp, ?_⟩
          obtain ⟨s2, hks2, hts2⟩ := msgKey_eq_sysText p hps (hstr p (by simp [hp]) hps)
          rw [hks, hks2] at hpk
          have hss : s2 = s := by simpa using hpk
          simp [hps, hts, hts2, hss]
        · rintro ⟨p, hp, hcond⟩
          have hcond2 : isSystem p = true ∧ (sysTextContent p == sysTextContent m) = true := by
            simpa using hcond
          obtain ⟨hps, hbeq⟩ := hcond2
          obtain ⟨s2, hks2, hts2⟩ := msgKey_eq_sysText p hps (hstr p (by simp [hp]) hps)
          refine ⟨p, hp, hps, ?_⟩
          rw [hts, hts2] at hbeq
          have hss : s2 = s := by simpa using hbeq
          rw [hks2, hks, hss]
      by_cases hk : msgKey m ∈ seen
      · have hcond : (isSystem m = true ∧
            (earlier.any fun p => isSystem p && sysTextContent p == sysTextContent m) = true) :=
          ⟨hs, hkey.mp hk⟩
        rw [dedupGo_cons, if_pos hs, if_pos hk, dedupSpecGo_cons, if_pos hcond]
        apply ih (earlier ++ [m]) seen hstr'
        intro k
        constructor
        · intro hkin
          obtain ⟨p, hp, hps, hpk⟩ := (hseen k).mp hkin
          exact ⟨p, by simp [hp], hps, hpk⟩
        · rintro ⟨p, hp, hps, hpk⟩
          rcases List.mem_append.mp hp with hin | hin
          · exact (hseen k).mpr ⟨p, hin, hps, hpk⟩
          · have hpm : p = m := by simpa using hin
            subst hpm
            rw [← hpk]
            exact hk
      · have hcond : ¬ (isSystem m = true ∧
            (earlier.any fun p => isSystem p && sysTextContent p == sysTextContent m) = true) := by
          rintro ⟨_, hany⟩
          exact hk (hkey.mpr hany)
        rw [dedupGo_cons, if_pos hs, if_neg hk, dedupSpecGo_cons, if_neg hcond]
        congr 1
        apply ih (earlier ++ [m]) (msgKey m :: seen) hstr'
        intro k
        constructor
        · intro hkin
          rcases List.mem_cons.mp hkin with h | h
          · exact ⟨m, by simp, hs, h.symm⟩
          · obtain ⟨p, hp, hps, hpk⟩ := (hseen k).mp h
            exact ⟨p, by simp [hp], hps, hpk⟩
        · rintro ⟨p, hp, hps, hpk⟩
          rcases List.mem_append.mp hp with hin | hin
          · exact List.mem_cons_of_mem _ ((hseen k).mpr ⟨p, hin, hps, hpk⟩)
          · have hpm : p = m := by simpa using hin
            subst hpm
            rw [← hpk]
            simp
    · have hcond : ¬ (isSystem m = true ∧
          (earlier.any fun p => isSystem p && sysTextContent p == sysTextContent m) = true) := by
        rintro ⟨h1, _⟩
        exact hs h1
      rw [dedupGo_cons, if_neg hs, dedupSpecGo_cons, if_neg hcond]
      congr 1
      apply ih (earlier ++ [m]) seen hstr'
      intro k
      constructor
      · intro hkin
        obtain ⟨p, hp, hps, hpk⟩ := (hseen k).mp hkin
        exact ⟨p, by simp [hp], hps, hpk⟩
      · rintro ⟨p, hp, hps, hpk⟩
        rcases List.mem_append.mp hp with hin | hin
        · exact (hseen k).mpr ⟨p, hin, hps, hpk⟩
        · have hpm : p = m := by simpa using hin
          subst hpm
          exact absurd hps hs

/-- C9: on lists whose system messages carry plain string contents, the
dedup pass of `compactMessages` (`dedupGo` with an empty seen set) equals
the specification-side pass that drops a system message exactly when some
earlier system message anywhere in the list has identical text content
(keeping first occurrences) and never removes non-system messages. -/
theorem dedup_drops_iff_earlier_system_text (l : List JMsg)
    (h : ∀ x ∈ l, isSystem x = true → hasStringContent x = true) :
    dedupGo [] l = dedupSpecGo [] l := by
  apply dedupGo_eq_spec_aux l [] []
  · simpa using h
  · intro k
    simp

/-- C9 witness: two non-adjacent system messages with identical text,
separated by a user message, collapse to the first occurrence. -/
theorem dedup_drops_iff_witness :
    dedupGo []
        [JMsg.obj (some "system") (some (JContent.str ("dup".toList))) 0,
         JMsg.obj (some "user") (some (JContent.str ("x".toList))) 1,
         JMsg.obj (some "system") (some (JContent.str ("dup".toList))) 2] =
      dedupSpecGo []
        [JMsg.obj (some "system") (some (JContent.str ("dup".toList))) 0,
         JMsg.obj (some "user") (some (JContent.str ("x".toList))) 1,
         JMsg.obj (some "system") (some (JContent.str ("dup".toList))) 2] ∧
    dedupGo []
        [JMsg.obj (some "system") (some (JContent.str ("dup".toList))) 0,
         JMsg.obj (some "user") (some (JContent.str ("x".toList))) 1,
         JMsg.obj (some "system") (some (JContent.str ("dup".toList))) 2] =
      [JMsg.obj (some "system") (some (JContent.str ("dup".toList))) 0,
       JMsg.obj (some "user") (some (JContent.str ("x".toList))) 1] :=
  ⟨dedup_drops_iff_earlier_system_text _ (by decide), by decide⟩

theorem luGo_succ (messages : List AgentMessage) (limit : Int) (i : Nat) (uc : Int)
    (lui : Nat) :
    luGo messages limit (i + 1) uc lui =
      match messages[i]? with
      | some msg =>
        if isUser msg then
          if limit < uc + 1 then messages.drop lui
          else luGo messages limit i (uc + 1) i
        else luGo messages limit i uc lui
      | none => luGo messages limit i uc lui := rfl

theorem luGo_drop (messages : List AgentMessage) (limit : Int) :
    ∀ (i : Nat) (uc : Int) (lui : Nat), lui ≤ messages.length →
      ∃ k, k ≤ messages.length ∧ luGo messages limit i uc lui = messages.drop k := by
  intro i
  induction i with
  | zero =>
    intro uc lui _
    exact ⟨0, Nat.zero_le _, rfl⟩
  | succ i ih =>
    intro uc lui hlui
    by_cases hlt : i < messages.length
    · have hget : messages[i]? = some messages[i] := List.getElem?_eq_getElem hlt
      have hred : luGo messages limit (i + 1) uc lui =
          (if isUser messages[i] then
            if limit < uc + 1 then messages.drop lui
            else luGo messages limit i (uc + 1) i
          else luGo messages limit i uc lui) := by
        rw [luGo_succ, hget]
      rw [hred]
      by_cases hu : isUser messages[i] = true
      · rw [if_pos hu]
        by_cases hl : limit < uc + 1
        · rw [if_pos hl]
          exact ⟨lui, hlui, rfl⟩
        · rw [if_neg hl]
          exact ih (uc + 1) i (by omega)
      · rw [if_neg hu]
        exact ih uc lui hlui
    · have hget : messages[i]? = none := List.getElem?_eq_none (by omega)
      have hred : luGo messages limit (i + 1) uc lui = luGo messages limit i uc lui := by
        rw [luGo_succ, hget]
      rw [hred]
      exact ih uc lui hlui

/-- C10: for every message list and limit, `limitHistoryTurns` returns a
contiguous tail slice of its input: the input itself (`drop 0`) or
`messages.drop k` for some `k`, so the limiter never reorders, modifies,
duplicates, or drops an interior message. -/
theorem limitHistoryTurns_is_tail_slice (messages : List AgentMessage) (limit : Option Int) :
    ∃ k, k ≤ messages.length ∧ limitHistoryTurns messages limit = messages.drop k := by
  cases limit with
  | none => exact ⟨0, Nat.zero_le _, rfl⟩
  | some l =>
    have hd : limitHistoryTurns messages (some l) =
        if l ≤ 0 ∨ messages.isEmpty then messages
        else luGo messages l messages.length 0 messages.length := rfl
    rw [hd]
    by_cases hg : l ≤ 0 ∨ messages.isEmpty = true
    · rw [if_pos hg]
      exact ⟨0, Nat.zero_le _, rfl⟩
    · rw [if_neg hg]
      exact luGo_drop messages l messages.length 0 messages.length le_rfl

theorem countUsers_cons_user (m : AgentMessage) (l : List AgentMessage)
    (h : isUser m = true) : countUsers (m :: l) = countUsers l + 1 := by
  unfold countUsers
  rw [List.filter_cons, if_pos (by simp [h])]
  simp

theorem countUsers_cons_not (m : AgentMessage) (l : List AgentMessage)
    (h : ¬ isUser m = true) : countUsers (m :: l) = countUsers l := by
  unfold countUsers
  rw [List.filter_cons, if_neg (by simp [h])]

theorem luGo_spec (messages : List AgentMessage) (limit : Int) (hpos : 0 < limit)
    (htot : limit < (countUsers messages : Int)) :
    ∀ (i : Nat), i ≤ messages.length → ∀ (uc : Int) (lui : Nat),
      uc = (countUsers (messages.drop i) : Int) →
      uc ≤ limit →
      (1 ≤ uc → lui < messages.length ∧
        (∃ mu, (messages.drop lui).head? = some mu ∧ isUser mu = true) ∧
        (countUsers (messages.drop lui) : Int) = uc) →
      ∃ k, k < messages.length ∧
        luGo messages limit i uc lui = messages.drop k ∧
        (∃ mu, (messages.drop k).head? = some mu ∧ isUser mu = true) ∧
        (countUsers (messages.drop k) : Int) = limit := by
  intro i
  induction i with
  | zero =>
    intro _ uc lui h1 h2 _
    exfalso
    rw [List.drop_zero] at h1
    omega
  | succ i ih =>
    intro hi uc lui h1 h2 h3
    have hilt : i < messages.length := by omega
    have hget : messages[i]? = some messages[i] := List.getElem?_eq_getElem hilt
    have hdrop : messages.drop i = messages[i] :: messages.drop (i + 1) :=
      List.drop_eq_getElem_cons hilt
    have hred : luGo messages limit (i + 1) uc lui =
        (if isUser messages[i] then
          if limit < uc + 1 then messages.drop lui
          else luGo messages limit i (uc + 1) i
        else luGo messages limit i uc lui) := by
      rw [luGo_succ, hget]
    rw [hred]
    by_cases hu : isUser messages[i] = true
    · rw [if_pos hu]
      have hcnt : countUsers (messages.drop i) = countUsers (messages.drop (i + 1)) + 1 := by
        rw [hdrop]
        exact countUsers_cons_user _ _ hu
      by_cases hl : limit < uc + 1
      · rw [if_pos hl]
        have huceq : uc = limit := by omega
        obtain ⟨hlui, hhead, hcount⟩ := h3 (by omega)
        exact ⟨lui, hlui, rfl, hhead, by rw [hcount, huceq]⟩
      · rw [if_neg hl]
        apply ih (by omega) (uc + 1) i
        · rw [hcnt]
          push_cast
          omega
        · omega
        · intro _
          refine ⟨hilt, ⟨messages[i], ?_, hu⟩, ?_⟩
          · rw [hdrop]
            simp
          · rw [hcnt]
            push_cast
            omega
    · rw [if_neg hu]
      have hcnt : countUsers (messages.drop i) = countUsers (messages.drop (i + 1)) := by
        rw [hdrop]
        exact countUsers_cons_not _ _ hu
      apply ih (by omega) uc lui
      · rw [hcnt]
        exact h1
      · exact h2
      · exact h3

/-- C6: `limitHistoryTurns` returns its input unchanged when the limit is
absent, zero (or negative), or the list is empty; and when the list has
more than `l > 0` user-role messages it returns the tail slice beginning at
the `l`-th most recent user-role message: a `drop` whose head is a
user-role message and which contains exactly `l` user-role messages. -/
theorem limitHistoryTurns_spec (msgs other : List AgentMessage) (l lneg : Int)
    (hl : 0 < l) (hneg : lneg ≤ 0) (hcnt : l < (countUsers msgs : Int)) :
    limitHistoryTurns other none = other ∧
    limitHistoryTurns other (some lneg) = other ∧
    limitHistoryTurns ([] : List AgentMessage) (some l) = [] ∧
    ∃ k, k < msgs.length ∧
      limitHistoryTurns msgs (some l) = msgs.drop k ∧
      (∃ mu, (msgs.drop k).head? = some mu ∧ isUser mu = true) ∧
      (countUsers (msgs.drop k) : Int) = l := by
  refine ⟨rfl, ?_, ?_, ?_⟩
  · show (if lneg ≤ 0 ∨ other.isEmpty then other
      else luGo other lneg other.length 0 other.length) = other
    rw [if_pos (Or.inl hneg)]
  · show (if l ≤ 0 ∨ (List.isEmpty ([] : List AgentMessage)) then ([] : List AgentMessage)
      else luGo [] l 0 0 0) = ([] : List AgentMessage)
    rw [if_pos (Or.inr (show (List.isEmpty ([] : List AgentMessage)) = true from rfl))]
  · have hne : ¬ (l ≤ 0 ∨ msgs.isEmpty = true) := by
      rintro (h | h)
      · omega
      · have hnil : msgs = [] := List.isEmpty_iff.mp h
        subst hnil
        simp [countUsers] at hcnt
        omega
    have hd : limitHistoryTurns msgs (some l) =
        luGo msgs l msgs.length 0 msgs.length := by
      show (if l ≤ 0 ∨ msgs.isEmpty then msgs
        else luGo msgs l msgs.length 0 msgs.length) = _
      rw [if_neg hne]
    rw [hd]
    apply luGo_spec msgs l hl hcnt msgs.length le_rfl 0 msgs.length
    · rw [List.drop_length]
      simp [countUsers]
    · omega
    · intro hcontra
      exact absurd hcontra (by omega)

/-- C6 witness: ten user turns interleaved with assistant replies and
limit 3: the result is the tail starting at the 3rd-from-last user message
(index 14), while limit 0 and an absent limit leave the list unchanged. -/
theorem limitHistoryTurns_spec_witness :
    ((0 : Int) < 3 ∧ (0 : Int) ≤ 0 ∧ (3 : Int) < (countUsers exTurns : Int)) ∧
    (limitHistoryTurns exTurns none = exTurns ∧
     limitHistoryTurns exTurns (some 0) = exTurns ∧
     limitHistoryTurns ([] : List AgentMessage) (some 3) = [] ∧
     ∃ k, k < exTurns.length ∧
       limitHistoryTurns exTurns (some 3) = exTurns.drop k ∧
       (∃ mu, (exTurns.drop k).head? = some mu ∧ isUser mu = true) ∧
       (countUsers (exTurns.drop k) : Int) = 3) ∧
    limitHistoryTurns exTurns (some 3) = exTurns.drop 14 :=
  ⟨⟨by decide, by decide, by decide⟩,
   limitHistoryTurns_spec exTurns exTurns 3 0 (by decide) (by decide) (by decide),
   by decide⟩
